import Mathlib

/-
  Verification of the phone-number recovery and normalization engine of the
  2025_Andree_MartinHS_Fundraiser contact-cleaning scripts
  (clean_duplicates_on_contacts.py and clean_google_contacts.py).

  Python strings are modelled as `List Char`; a Python function that can
  return `None` is modelled as returning an `Option`.  Python's `str.isdigit`,
  `str.strip` and `str.lower` are modelled on the ASCII subset that the phone
  data uses (the only non-ASCII character that matters, the accented `ó` of the
  label keyword "móvil", is already lower case).  The module-level constant
  ADD_MX_MOBILE_ONE (False in both scripts) is passed as an explicit boolean
  parameter `addMx`.
-/

abbrev Str := List Char

/-- Python `ch.isdigit()` on the ASCII digits used by the phone data. -/
def isDig (c : Char) : Bool := c.isDigit

/-- The whitespace characters removed by Python's `str.strip()`. -/
def pyWs (c : Char) : Bool :=
  c = ' ' || c = '\t' || c = '\n' || c = '\x0d' || c = '\x0b' || c = '\x0c'

/-- Python `s.strip()`: drop leading and trailing whitespace. -/
def strip (s : Str) : Str :=
  ((s.dropWhile pyWs).reverse.dropWhile pyWs).reverse

/-- `only_digits` from both cleaning scripts: keep only the digit characters. -/
def only_digits (s : Str) : Str := s.filter isDig

/-- Python `s.startswith(p)` (the pattern is the first argument). -/
def startsW : Str → Str → Bool
  | [], _ => true
  | _ :: _, [] => false
  | p :: ps, c :: cs => p = c && startsW ps cs

/-- Python substring containment `needle in haystack`. -/
def containsSub (needle : Str) : Str → Bool
  | [] => needle.isEmpty
  | c :: cs => startsW needle (c :: cs) || containsSub needle cs

/-- Python `s.lower()` on the ASCII subset (accented keyword letters are
    already lower case in the sources). -/
def lowerStr (s : Str) : Str := s.map Char.toLower

/-- `country_from_e164` from clean_duplicates_on_contacts.py. -/
def country_from_e164 (e : Str) : Str :=
  if startsW "+1".toList e then "US".toList
  else if startsW "+52".toList e then "MX".toList
  else "INTL".toList

/-- `normalize_phone` from clean_duplicates_on_contacts.py.  `addMx` is the
    module constant ADD_MX_MOBILE_ONE (False in the source). -/
def cd_normalize_phone (addMx : Bool) (raw : Str) : Option Str :=
  if raw.isEmpty then none else
  let s := strip raw
  if startsW "+".toList s then
    let d := only_digits s
    if d.length < 8 then none
    else if startsW "52".toList d then
      let locl := d.drop 2
      if addMx = true ∧ ¬ startsW "521".toList d = true ∧ locl.length = 10 then
        some ("+521".toList ++ locl)
      else some ('+' :: d)
    else some ('+' :: d)
  else
    let d := only_digits s
    if d.isEmpty then none
    else if startsW "52".toList d = true ∧ (d.length = 12 ∨ d.length = 13) then
      let locl := d.drop 2
      if addMx = true ∧ ¬ startsW "521".toList d = true ∧ locl.length = 10 then
        some ("+521".toList ++ locl)
      else some ('+' :: d)
    else if d.length = 11 ∧ startsW "1".toList d = true then
      some ("+1".toList ++ d.drop 1)
    else if d.length = 10 then
      some ("+1".toList ++ d)
    else if 8 ≤ d.length then
      some ('+' :: d)
    else none

/-- `normalize_phone` from clean_google_contacts.py: returns the
    (e164, country) pair, or `none` for Python's `(None, None)`. -/
def g_normalize_phone (addMx : Bool) (raw : Str) : Option (Str × Str) :=
  if raw.isEmpty then none else
  let s := strip raw
  if startsW "+".toList s = true ∧ 8 ≤ (only_digits s).length then
    let digits := only_digits s
    let country := if startsW "+52".toList s then "MX".toList
                   else if startsW "+1".toList s then "US".toList
                   else "INTL".toList
    if country = "MX".toList ∧ addMx = true then
      if startsW "+52".toList s = true ∧ ¬ startsW "+521".toList s = true then
        let locl := digits.drop 2
        if locl.length = 10 then some ("+521".toList ++ locl, "MX".toList)
        else some ('+' :: digits, country)
      else some ('+' :: digits, country)
    else some ('+' :: digits, country)
  else if startsW "00".toList s then
    let digits := only_digits (s.drop 2)
    if startsW "52".toList digits then
      let locl := digits.drop 2
      if addMx = true ∧ locl.length = 10 ∧ ¬ startsW "521".toList digits = true then
        some ("+521".toList ++ locl, "MX".toList)
      else some ("+52".toList ++ locl, "MX".toList)
    else some ('+' :: digits, "INTL".toList)
  else
    let digits := only_digits s
    if startsW "011".toList digits then
      let d := digits.drop 3
      if startsW "52".toList d then
        let locl := d.drop 2
        if addMx = true ∧ locl.length = 10 ∧ ¬ startsW "521".toList d = true then
          some ("+521".toList ++ locl, "MX".toList)
        else some ("+52".toList ++ locl, "MX".toList)
      else some ('+' :: d, "INTL".toList)
    else if digits.length = 11 ∧ startsW "1".toList digits = true then
      some ("+1".toList ++ digits.drop 1, "US".toList)
    else if digits.length = 10 then
      some ("+1".toList ++ digits, "US".toList)
    else if startsW "52".toList digits = true ∧ (digits.length = 12 ∨ digits.length = 13) then
      let locl := digits.drop 2
      if addMx = true ∧ ¬ startsW "521".toList digits = true ∧ locl.length = 10 then
        some ("+521".toList ++ locl, "MX".toList)
      else some ('+' :: digits, "MX".toList)
    else if 8 ≤ digits.length then
      some ('+' :: digits, "INTL".toList)
    else none

/-- `n` consecutive digit characters at the head of `s` (used by the regex model). -/
def isDigitRun : Nat → Str → Bool
  | 0, _ => true
  | _ + 1, [] => false
  | n + 1, c :: cs => isDig c && isDigitRun n cs

/-- One attempt of the regex `\+1\d{10}|\+521?\d{10}` anchored at the head of
    `s` (Python alternation tries the left branch first; the greedy `1?`
    backs off when only 9 digits follow the `521`).  Returns the length of the
    match. -/
def matchLen : Str → Option Nat
  | '+' :: '1' :: t => if isDigitRun 10 t then some 12 else none
  | '+' :: '5' :: '2' :: '1' :: t =>
      if isDigitRun 10 t then some 14
      else if isDigitRun 9 t then some 13
      else none
  | '+' :: '5' :: '2' :: t => if isDigitRun 10 t then some 13 else none
  | _ => none

/-- `re.findall(r"\+1\d{10}|\+521?\d{10}", s)`: leftmost, non-overlapping
    matches scanning left to right.  Fuelled by the string length (every
    step consumes at least one character). -/
def findallAux : Nat → Str → List Str
  | 0, _ => []
  | _, [] => []
  | fuel + 1, c :: cs =>
    match matchLen (c :: cs) with
    | some n => (c :: cs).take n :: findallAux fuel ((c :: cs).drop n)
    | none => findallAux fuel cs

def findall (s : Str) : List Str := findallAux s.length s

/-- Worker for `re.split(r"(?=\+)", s)`: `acc` is the reversed current piece. -/
def splitPlusAux (acc : Str) : Str → List Str
  | [] => [acc.reverse]
  | c :: cs =>
    if c = '+' then acc.reverse :: splitPlusAux [c] cs
    else splitPlusAux (c :: acc) cs

/-- `re.split(r"(?=\+)", s)`: split before every `'+'`; no character is
    consumed by the zero-width separator. -/
def splitPlus (s : Str) : List Str := splitPlusAux [] s

/-- The token-splitting step of `extract_phone_candidates` (lines 96-99):
    when the field holds more than one `'+'`, split before each `'+'` and keep
    the pieces that do not strip to the empty string; otherwise the whole
    field is the single token scanned. -/
def tokenize (text : Str) : List Str :=
  if 1 < text.count '+' then
    (splitPlus text).filter (fun p => !(strip p).isEmpty)
  else [text]

/-- Inner loop body of `sliding_candidates_from_digits` at offset `i`. -/
def sliding_at (digits : Str) (i : Nat) : List Str :=
  let w11 := (digits.drop i).take 11
  let o1 := if w11.length = 11 ∧ startsW "1".toList w11 = true then
      ["+1".toList ++ w11.drop 1] else []
  let w12 := (digits.drop i).take 12
  let o2 := if w12.length = 12 ∧ startsW "52".toList w12 = true then
      ['+' :: w12] else []
  let w13 := (digits.drop i).take 13
  let o3 := if w13.length = 13 ∧ startsW "521".toList w13 = true then
      ['+' :: w13] else []
  o1 ++ o2 ++ o3

/-- The order-preserving `seen`-set dedupe loop closing
    `sliding_candidates_from_digits`. -/
def dedupeKeep (seen : List Str) : List Str → List Str
  | [] => []
  | t :: ts => if t ∈ seen then dedupeKeep seen ts else t :: dedupeKeep (t :: seen) ts

/-- `sliding_candidates_from_digits` from clean_duplicates_on_contacts.py. -/
def sliding_candidates_from_digits (digits : Str) : List Str :=
  dedupeKeep [] ((List.range digits.length).flatMap (sliding_at digits))

/-- The dedupe loop closing `extract_phone_candidates`; it also drops empty
    strings (`if t and t not in seen`). -/
def dedupeNE (seen : List Str) : List Str → List Str
  | [] => []
  | t :: ts =>
    if t = [] ∨ t ∈ seen then dedupeNE seen ts else t :: dedupeNE (t :: seen) ts

/-- `extract_phone_candidates` from clean_duplicates_on_contacts.py. -/
def extract_phone_candidates (addMx : Bool) (text : Str) : List Str :=
  if text.isEmpty then []
  else
    let tokens1 := findall text
    let tokens2 :=
      if 1 < text.count '+' then
        tokens1 ++ ((splitPlus text).filter (fun p => !(strip p).isEmpty)).flatMap findall
      else tokens1
    let tokens3 :=
      if tokens2.isEmpty ∨ 15 < (only_digits text).length then
        tokens2 ++ sliding_candidates_from_digits (only_digits text)
      else tokens2
    let tokens4 :=
      match cd_normalize_phone addMx text with
      | some e => if e ≠ [] ∧ e ∉ tokens3 then tokens3 ++ [e] else tokens3
      | none => tokens3
    dedupeNE [] tokens4

example : extract_phone_candidates false ("+181730705158175648524".toList) =
    ["+18173070515".toList, "+17307051581".toList, "+15817564852".toList,
     "+181730705158175648524".toList] := by decide
example : tokenize (" +11111111111+22222222222".toList) =
    ["+11111111111".toList, "+22222222222".toList] := by decide
/-- The mobile-keyword test of `pick_best_from_google_row`; the source tuple
    lists "móvil" twice (once spelled with a unicode escape), denoting the
    same string. -/
def isMobileLabel (label : Str) : Bool :=
  containsSub "mobile".toList label || containsSub "cell".toList label ||
    containsSub "móvil".toList label || containsSub "móvil".toList label

/-- The field loop of `pick_best_from_google_row`; `best` is the running
    fallback (`best = cands[0]` the first time a non-mobile field yields). -/
def pbg_aux (addMx : Bool) : List (Str × Str) → Option Str → Option Str
  | [], best => best
  | (v, l) :: rest, best =>
    let val := strip v
    if val.isEmpty then pbg_aux addMx rest best
    else
      let label := lowerStr l
      match extract_phone_candidates addMx val with
      | [] => pbg_aux addMx rest best
      | c :: _ =>
        if isMobileLabel label then some c
        else pbg_aux addMx rest (match best with | none => some c | some b => some b)

/-- `pick_best_from_google_row` from clean_duplicates_on_contacts.py.  A row
    is given as the ordered list of its (Phone i - Value, Phone i - Label)
    pairs. -/
def pick_best_from_google_row (addMx : Bool) (row : List (Str × Str)) : Option Str :=
  pbg_aux addMx row none

/-- Modelled from the spec (§4.5, restating the Record Selector contract for
    the refinement comparison with `pick_best_from_google_row`): the first
    non-empty field whose label contains a mobile keyword and which yields a
    candidate returns that candidate immediately. -/
def spec_first_mobile (addMx : Bool) : List (Str × Str) → Option Str
  | [] => none
  | (v, l) :: rest =>
    let val := strip v
    if val.isEmpty then spec_first_mobile addMx rest
    else
      match extract_phone_candidates addMx val with
      | [] => spec_first_mobile addMx rest
      | c :: _ =>
        if isMobileLabel (lowerStr l) then some c
        else spec_first_mobile addMx rest

/-- Modelled from the spec (§4.5): the first valid number seen across all
    fields in field order. -/
def spec_first_valid (addMx : Bool) : List (Str × Str) → Option Str
  | [] => none
  | (v, _) :: rest =>
    let val := strip v
    if val.isEmpty then spec_first_valid addMx rest
    else
      match extract_phone_candidates addMx val with
      | [] => spec_first_valid addMx rest
      | c :: _ => some c

/-- Modelled from the spec (§4.5): mobile-labelled fields short-circuit,
    otherwise the first valid number in field order is the fallback. -/
def spec_record_selector (addMx : Bool) (row : List (Str × Str)) : Option Str :=
  match spec_first_mobile addMx row with
  | some c => some c
  | none => spec_first_valid addMx row

/-- Python comparison of strings (by code point, shorter prefixes first). -/
def ltStr : Str → Str → Bool
  | [], [] => false
  | [], _ :: _ => true
  | _ :: _, [] => false
  | a :: as2, b :: bs => if a < b then true else if b < a then false else ltStr as2 bs

/-- A scored candidate of `pick_best_number`: (score, e164, country). -/
abbrev Cand := Nat × Str × Str

/-- Python comparison of (int, str, str) tuples, lexicographic. -/
def tupLt (x y : Cand) : Bool :=
  if x.1 < y.1 then true
  else if y.1 < x.1 then false
  else if ltStr x.2.1 y.2.1 then true
  else if ltStr y.2.1 x.2.1 then false
  else ltStr x.2.2 y.2.2

/-- Stable insertion for `candidates.sort(reverse=True)`: a later element is
    placed after every earlier element that is not strictly smaller. -/
def insertDesc (x : Cand) : List Cand → List Cand
  | [] => [x]
  | y :: ys => if tupLt y x then x :: y :: ys else y :: insertDesc x ys

/-- `candidates.sort(reverse=True)` (stable, descending). -/
def sortDesc (l : List Cand) : List Cand := l.foldl (fun acc x => insertDesc x acc) []

/-- Descending sortedness: no earlier element is smaller than a later one. -/
def DescSorted (l : List Cand) : Prop := l.Pairwise (fun a b => tupLt a b = false)


/-- The candidate-collection loop of `pick_best_number`
    (clean_google_contacts.py): score 2 for mobile-like labels, else 1. -/
def g_collect (addMx : Bool) : List (Str × Str) → List Cand
  | [] => []
  | (v, l) :: rest =>
    let val := strip v
    if val.isEmpty then g_collect addMx rest
    else
      let label := lowerStr l
      match g_normalize_phone addMx val with
      | some (e, c) =>
        (if containsSub "mobile".toList label || containsSub "cell".toList label ||
            containsSub "móvil".toList label then 2 else 1, e, c) :: g_collect addMx rest
      | none => g_collect addMx rest

/-- `pick_best_number` from clean_google_contacts.py: sort the scored
    candidates descending and return the first. -/
def pick_best_number (addMx : Bool) (row : List (Str × Str)) : Option (Str × Str) :=
  match sortDesc (g_collect addMx row) with
  | [] => none
  | c :: _ => some (c.2.1, c.2.2)

/-- An output row of clean_duplicates_on_contacts.py's `main`. -/
structure OutRow where
  name : Str
  phone : Str
  country : Str
  channel : Str
  optIn : Str
deriving DecidableEq

/-- The OrderedDict built for an accepted row in `main`
    (clean_duplicates_on_contacts.py, lines 185-191). -/
def mkOutRow (nm phone : Str) : OutRow :=
  { name := nm, phone := phone, country := country_from_e164 phone,
    channel := "WhatsApp".toList, optIn := [] }

/-- The per-row loop of `main` (clean_duplicates_on_contacts.py): `seen` is
    the set of already emitted numbers; a row with no picked number or an
    already seen number is skipped.  `fullName` and `pick` abstract
    `full_name` and the schema-dependent picker. -/
def main_loop {ρ : Type} (fullName : ρ → Str) (pick : ρ → Option Str) :
    List ρ → List Str → List OutRow
  | [], _ => []
  | r :: rest, seen =>
    match pick r with
    | none => main_loop fullName pick rest seen
    | some p =>
      if p ∈ seen then main_loop fullName pick rest seen
      else mkOutRow (fullName r) p :: main_loop fullName pick rest (p :: seen)

/-- `main` of clean_duplicates_on_contacts.py.  The schema test
    `"Phone" in rows[0]` raises IndexError on an empty batch; that abort is
    modelled as `none`. -/
def cd_main {ρ : Type} (hasPhoneCol : ρ → Bool) (fullName : ρ → Str)
    (pickS pickG : ρ → Option Str) (rows : List ρ) : Option (List OutRow) :=
  match rows with
  | [] => none
  | r0 :: _ =>
    some (main_loop fullName (if hasPhoneCol r0 then pickS else pickG) rows [])

example : pick_best_number false
    [("2145551212".toList, "home".toList), ("9995551212".toList, "home".toList)] =
    some ("+19995551212".toList, "US".toList) := by decide
example : pick_best_from_google_row false
    [("2145551212".toList, "home".toList), ("9995551212".toList, "home".toList)] =
    some ("+12145551212".toList) := by decide
example : pick_best_from_google_row false
    [("2145551212".toList, "Home".toList), ("8175550000".toList, "Mobile".toList)] =
    some ("+18175550000".toList) := by decide

example : cd_normalize_phone false ("(214) 555-1212".toList) = some ("+12145551212".toList) := by decide

/-! ### Basic lemmas about the string helpers -/

theorem pyWs_eq_false_of_isDig (c : Char) (h : isDig c = true) : pyWs c = false := by
  simp only [pyWs, Bool.or_eq_false_iff, decide_eq_false_iff_not]
  refine ⟨⟨⟨⟨⟨?_, ?_⟩, ?_⟩, ?_⟩, ?_⟩, ?_⟩ <;> rintro rfl <;> exact absurd h (by decide)

theorem strip_eq_self (s : Str) (h : ∀ c ∈ s, pyWs c = false) : strip s = s := by
  have h1 : s.dropWhile pyWs = s := by
    cases s with
    | nil => rfl
    | cons a l => simp [List.dropWhile_cons, h a (List.mem_cons_self a l)]
  have h2 : s.reverse.dropWhile pyWs = s.reverse := by
    cases hs : s.reverse with
    | nil => rfl
    | cons a l =>
      have ha : a ∈ s := by
        have : a ∈ s.reverse := by rw [hs]; exact List.mem_cons_self a l
        simpa using this
      simp [List.dropWhile_cons, h a ha]
  simp [strip, h1, h2]

theorem strip_of_all_digits (d : Str) (h : d.all isDig = true) : strip d = d := by
  refine strip_eq_self d (fun c hc => ?_)
  exact pyWs_eq_false_of_isDig c (by simpa using (List.all_eq_true.mp h c hc))

theorem strip_plus_digits (D : Str) (h : D.all isDig = true) :
    strip ('+' :: D) = '+' :: D := by
  refine strip_eq_self _ (fun c hc => ?_)
  rcases List.mem_cons.mp hc with h1 | h1
  · subst h1; decide
  · exact pyWs_eq_false_of_isDig c (by simpa using (List.all_eq_true.mp h c h1))

theorem only_digits_all (s : Str) : (only_digits s).all isDig = true := by
  simp only [only_digits, List.all_eq_true]
  intro c hc
  exact (List.mem_filter.mp hc).2

theorem only_digits_eq_self (d : Str) (h : d.all isDig = true) : only_digits d = d := by
  simpa [only_digits, List.filter_eq_self] using fun c hc => List.all_eq_true.mp h c hc

theorem only_digits_plus (D : Str) : only_digits ('+' :: D) = only_digits D := by
  have h : isDig '+' = false := by decide
  simp [only_digits, List.filter_cons, h]

theorem all_isDig_drop (d : Str) (n : Nat) (h : d.all isDig = true) :
    (d.drop n).all isDig = true := by
  simp only [List.all_eq_true] at h ⊢
  exact fun c hc => h c (List.drop_subset n d hc)

theorem all_isDig_take (d : Str) (n : Nat) (h : d.all isDig = true) :
    (d.take n).all isDig = true := by
  simp only [List.all_eq_true] at h ⊢
  exact fun c hc => h c (List.take_subset n d hc)

theorem startsW_plus_eq_false (d : Str) (h : d.all isDig = true) (hne : d ≠ []) :
    startsW "+".toList d = false := by
  cases d with
  | nil => exact absurd rfl hne
  | cons c cs =>
    have hc : isDig c = true := by simpa using (List.all_eq_true.mp h c (List.mem_cons_self c cs))
    show ((('+' : Char) = c : Bool) && startsW [] cs) = false
    have : (('+' : Char) = c : Bool) = false := by
      simp only [decide_eq_false_iff_not]
      rintro rfl
      exact absurd hc (by decide)
    simp [this]

/-! ### Shape of the normalizers' outputs -/

theorem all_isDig_cons3 (locl : Str) (h : locl.all isDig = true) :
    ('5' :: '2' :: '1' :: locl).all isDig = true := by
  simp only [List.all_cons, Bool.and_eq_true]
  exact ⟨by decide, by decide, by decide, h⟩

/-- Every number produced by clean_duplicates' `normalize_phone` is a `'+'`
    followed by at least 8 digits and nothing else. -/
theorem cd_shape (addMx : Bool) (raw e : Str) (h : cd_normalize_phone addMx raw = some e) :
    ∃ D, e = '+' :: D ∧ D.all isDig = true ∧ 8 ≤ D.length := by
  have hall := only_digits_all (strip raw)
  simp only [cd_normalize_phone] at h
  split at h
  · exact absurd h (by simp)
  split at h
  · -- the '+'-prefixed branch
    split at h
    · exact absurd h (by simp)
    next hlen =>
    split at h
    · split at h
      next hins =>
        obtain rfl : e = '+' :: ('5' :: '2' :: '1' :: (only_digits (strip raw)).drop 2) :=
          (Option.some.inj h).symm
        refine ⟨_, rfl, all_isDig_cons3 _ (all_isDig_drop _ 2 hall), ?_⟩
        simp [hins.2.2]
      · exact ⟨_, (Option.some.inj h).symm, hall, by omega⟩
    · exact ⟨_, (Option.some.inj h).symm, hall, by omega⟩
  · -- the bare-digits branch
    split at h
    · exact absurd h (by simp)
    split at h
    next hmx =>
      split at h
      next hins =>
        obtain rfl : e = '+' :: ('5' :: '2' :: '1' :: (only_digits (strip raw)).drop 2) :=
          (Option.some.inj h).symm
        refine ⟨_, rfl, all_isDig_cons3 _ (all_isDig_drop _ 2 hall), ?_⟩
        simp [hins.2.2]
      · refine ⟨_, (Option.some.inj h).symm, hall, ?_⟩
        omega
    split at h
    next h11 =>
      obtain rfl : e = '+' :: ('1' :: (only_digits (strip raw)).drop 1) :=
        (Option.some.inj h).symm
      refine ⟨_, rfl, ?_, ?_⟩
      · simp only [List.all_cons, Bool.and_eq_true]
        exact ⟨by decide, all_isDig_drop _ 1 hall⟩
      · simp [h11.1]
    split at h
    next h10 =>
      obtain rfl : e = '+' :: ('1' :: only_digits (strip raw)) :=
        (Option.some.inj h).symm
      refine ⟨_, rfl, ?_, ?_⟩
      · simp only [List.all_cons, Bool.and_eq_true]
        exact ⟨by decide, hall⟩
      · simp [h10]
    split at h
    next h8 => exact ⟨_, (Option.some.inj h).symm, hall, h8⟩
    · exact absurd h (by simp)

set_option linter.unusedTactic false in
/-- Every number produced by clean_google_contacts' `normalize_phone` is a
    `'+'` followed only by digits (possibly fewer than 8 of them: the 00/011
    branches enforce no lower bound). -/
theorem g_shape (addMx : Bool) (raw : Str) (pr : Str × Str)
    (h : g_normalize_phone addMx raw = some pr) :
    ∃ D, pr.1 = '+' :: D ∧ D.all isDig = true := by
  have hall := only_digits_all (strip raw)
  have hall2 := only_digits_all ((strip raw).drop 2)
  simp only [g_normalize_phone] at h
  repeat' split at h
  all_goals first
    | exact Option.noConfusion h
    | (obtain rfl : pr = _ := (Option.some.inj h).symm
       refine ⟨_, rfl, ?_⟩
       try simp only [List.all_append, List.all_cons, Bool.and_eq_true, List.all_nil,
         and_true, true_and]
       repeat' apply And.intro
       all_goals first
         | decide
         | exact hall
         | exact hall2
         | exact all_isDig_drop _ _ hall
         | exact all_isDig_drop _ _ hall2
         | exact all_isDig_drop _ _ (all_isDig_drop _ _ hall))

/-! ### Renormalizing an output (idempotence machinery) -/

theorem startsW_plus_cons (D : Str) : startsW "+".toList ('+' :: D) = true := by
  show (('+' = '+' : Bool) && startsW [] D) = true
  simp [startsW]

theorem only_digits_plus_digits (D : Str) (hD : D.all isDig = true) :
    only_digits ('+' :: D) = D := by
  rw [only_digits_plus]; exact only_digits_eq_self D hD

/-- With the configured ADD_MX_MOBILE_ONE = False, clean_duplicates'
    normalizer returns any `'+'`-plus-8-or-more-digits string unchanged. -/
theorem cd_plus_eval (D : Str) (hD : D.all isDig = true) (h8 : 8 ≤ D.length) :
    cd_normalize_phone false ('+' :: D) = some ('+' :: D) := by
  have hstrip := strip_plus_digits D hD
  have honly := only_digits_plus_digits D hD
  simp only [cd_normalize_phone, List.isEmpty_cons, hstrip, honly, startsW_plus_cons,
    Bool.false_eq_true, if_false, if_true]
  rw [if_neg (by omega)]
  split
  · rw [if_neg (by simp)]
  · rfl

/-- With ADD_MX_MOBILE_ONE = False, clean_google's normalizer returns any
    `'+'`-plus-8-or-more-digits string unchanged (the country tag is
    recomputed from the prefix). -/
theorem g_plus_eval (D : Str) (hD : D.all isDig = true) (h8 : 8 ≤ D.length) :
    ∃ c, g_normalize_phone false ('+' :: D) = some ('+' :: D, c) := by
  have hstrip := strip_plus_digits D hD
  have honly := only_digits_plus_digits D hD
  simp only [g_normalize_phone, List.isEmpty_cons, hstrip, honly, startsW_plus_cons,
    Bool.false_eq_true, if_false, if_true]
  rw [if_pos ⟨trivial, h8⟩]
  rw [if_neg (by simp)]
  exact ⟨_, rfl⟩

/-! ### startsW and strip utilities -/

theorem startsW_iff_append (p s : Str) : startsW p s = true ↔ ∃ t, s = p ++ t := by
  induction p generalizing s with
  | nil => simp [startsW]
  | cons a ps ih =>
    cases s with
    | nil => simp [startsW]
    | cons c cs =>
      simp only [startsW, Bool.and_eq_true, decide_eq_true_eq, ih, List.cons_append,
        List.cons.injEq]
      constructor
      · rintro ⟨rfl, t, rfl⟩; exact ⟨t, rfl, rfl⟩
      · rintro ⟨t, rfl, rfl⟩; exact ⟨rfl, t, rfl⟩

theorem startsW_self_append (p x : Str) : startsW p (p ++ x) = true :=
  (startsW_iff_append p (p ++ x)).mpr ⟨x, rfl⟩

theorem startsW_head_false (a b : Char) (p q s : Str) (hab : a ≠ b)
    (h : startsW (a :: p) s = true) : startsW (b :: q) s = false := by
  cases s with
  | nil => simp [startsW] at h
  | cons c cs =>
    simp only [startsW, Bool.and_eq_true, decide_eq_true_eq] at h
    obtain ⟨rfl, -⟩ := h
    simp [startsW, hab.symm]

theorem dropWhile_eq_self_of_head (q : Char → Bool) (s : Str)
    (h : ∀ hne : s ≠ [], q (s.head hne) = false) : s.dropWhile q = s := by
  cases s with
  | nil => rfl
  | cons c cs =>
    have hc : q c = false := h (by simp)
    simp [List.dropWhile_cons, hc]

theorem startsW_strip (p s : Str) (hp : ∀ c ∈ p, pyWs c = false)
    (h : startsW p s = true) : startsW p (strip s) = true := by
  obtain ⟨t, rfl⟩ := (startsW_iff_append p s).mp h
  cases p with
  | nil => simp [startsW]
  | cons a ps =>
    have h1 : ((a :: ps) ++ t).dropWhile pyWs = (a :: ps) ++ t := by
      simp [List.dropWhile_cons, hp a (List.mem_cons_self a ps)]
    have h2 : ((a :: ps).reverse).dropWhile pyWs = (a :: ps).reverse := by
      refine dropWhile_eq_self_of_head pyWs _ (fun hne => ?_)
      refine hp _ ?_
      have hm := List.head_mem hne
      simp only [List.mem_reverse] at hm
      exact hm
    rw [strip, h1, List.reverse_append, List.dropWhile_append]
    split
    · rw [h2, List.reverse_reverse]
      exact (startsW_iff_append _ _).mpr ⟨[], by simp⟩
    · rw [List.reverse_append, List.reverse_reverse]
      exact startsW_self_append _ _

theorem only_digits_dropWhile_pyWs (s : Str) :
    only_digits (s.dropWhile pyWs) = only_digits s := by
  induction s with
  | nil => rfl
  | cons c cs ih =>
    by_cases hc : pyWs c = true
    · have hd : isDig c = false := by
        cases hdig : isDig c
        · rfl
        · rw [pyWs_eq_false_of_isDig c hdig] at hc
          exact absurd hc (by simp)
      simp only [only_digits] at ih ⊢
      simp [List.dropWhile_cons, hc, List.filter_cons, hd, ih]
    · simp [List.dropWhile_cons, hc]

theorem only_digits_reverse (s : Str) : only_digits s.reverse = (only_digits s).reverse := by
  simp [only_digits, List.filter_reverse]

theorem only_digits_strip (s : Str) : only_digits (strip s) = only_digits s := by
  rw [strip, only_digits_reverse, only_digits_dropWhile_pyWs, only_digits_reverse,
    List.reverse_reverse, only_digits_dropWhile_pyWs]

/-! ### Reducing the normalizers on inputs that miss the leading branches -/

/-- clean_duplicates' normalizer on a field that (after stripping) does not
    start with `'+'`: only the bare-digit rules apply. -/
theorem cd_noplus (addMx : Bool) (raw : Str) (hne : raw.isEmpty = false)
    (hplus : startsW "+".toList (strip raw) = false) :
    cd_normalize_phone addMx raw =
      (if (only_digits (strip raw)).isEmpty then none
       else if startsW "52".toList (only_digits (strip raw)) = true ∧
           ((only_digits (strip raw)).length = 12 ∨ (only_digits (strip raw)).length = 13) then
         if addMx = true ∧ ¬ startsW "521".toList (only_digits (strip raw)) = true ∧
             ((only_digits (strip raw)).drop 2).length = 10 then
           some ("+521".toList ++ (only_digits (strip raw)).drop 2)
         else some ('+' :: only_digits (strip raw))
       else if (only_digits (strip raw)).length = 11 ∧
           startsW "1".toList (only_digits (strip raw)) = true then
         some ("+1".toList ++ (only_digits (strip raw)).drop 1)
       else if (only_digits (strip raw)).length = 10 then
         some ("+1".toList ++ only_digits (strip raw))
       else if 8 ≤ (only_digits (strip raw)).length then
         some ('+' :: only_digits (strip raw))
       else none) := by
  simp only [cd_normalize_phone, hne, hplus, Bool.false_eq_true, if_false]

/-- clean_google's normalizer on a field that misses both the `'+'` branch and
    the `00` branch. -/
theorem g_noplus (addMx : Bool) (raw : Str) (hne : raw.isEmpty = false)
    (hplus : ¬ (startsW "+".toList (strip raw) = true ∧ 8 ≤ (only_digits (strip raw)).length))
    (h00 : startsW "00".toList (strip raw) = false) :
    g_normalize_phone addMx raw =
      (if startsW "011".toList (only_digits (strip raw)) = true then
        (if startsW "52".toList ((only_digits (strip raw)).drop 3) = true then
          if addMx = true ∧ (((only_digits (strip raw)).drop 3).drop 2).length = 10 ∧
              ¬ startsW "521".toList ((only_digits (strip raw)).drop 3) = true then
            some ("+521".toList ++ ((only_digits (strip raw)).drop 3).drop 2, "MX".toList)
          else some ("+52".toList ++ ((only_digits (strip raw)).drop 3).drop 2, "MX".toList)
        else some ('+' :: (only_digits (strip raw)).drop 3, "INTL".toList))
       else if (only_digits (strip raw)).length = 11 ∧
           startsW "1".toList (only_digits (strip raw)) = true then
         some ("+1".toList ++ (only_digits (strip raw)).drop 1, "US".toList)
       else if (only_digits (strip raw)).length = 10 then
         some ("+1".toList ++ only_digits (strip raw), "US".toList)
       else if startsW "52".toList (only_digits (strip raw)) = true ∧
           ((only_digits (strip raw)).length = 12 ∨ (only_digits (strip raw)).length = 13) then
         if addMx = true ∧ ¬ startsW "521".toList (only_digits (strip raw)) = true ∧
             ((only_digits (strip raw)).drop 2).length = 10 then
           some ("+521".toList ++ (only_digits (strip raw)).drop 2, "MX".toList)
         else some ('+' :: only_digits (strip raw), "MX".toList)
       else if 8 ≤ (only_digits (strip raw)).length then
         some ('+' :: only_digits (strip raw), "INTL".toList)
       else none) := by
  simp only [g_normalize_phone, hne, h00, hplus, Bool.false_eq_true, if_false]

/-- clean_google's normalizer on an input that starts with `00`: the prefix is
    cut and the remainder handled by the international rule, with no
    minimum-length check. -/
theorem g_00 (addMx : Bool) (raw : Str) (h00 : startsW "00".toList raw = true) :
    g_normalize_phone addMx raw =
      (if startsW "52".toList (only_digits ((strip raw).drop 2)) = true then
        if addMx = true ∧ ((only_digits ((strip raw).drop 2)).drop 2).length = 10 ∧
            ¬ startsW "521".toList (only_digits ((strip raw).drop 2)) = true then
          some ("+521".toList ++ (only_digits ((strip raw).drop 2)).drop 2, "MX".toList)
        else some ("+52".toList ++ (only_digits ((strip raw).drop 2)).drop 2, "MX".toList)
       else some ('+' :: only_digits ((strip raw).drop 2), "INTL".toList)) := by
  have hne : raw.isEmpty = false := by
    cases raw
    · simp [startsW] at h00
    · rfl
  have h00s : startsW "00".toList (strip raw) = true :=
    startsW_strip _ _ (by decide) h00
  have hplus : startsW "+".toList (strip raw) = false :=
    startsW_head_false '0' '+' ("0".toList) [] (strip raw) (by decide) h00s
  simp only [g_normalize_phone, hne, hplus, h00s, Bool.false_eq_true, false_and, if_false,
    if_true, if_pos]

/-- Renormalizing any accepted output of clean_duplicates' normalizer (with
    the configured ADD_MX_MOBILE_ONE = False) returns it unchanged. -/
theorem cd_renorm_fixed (x e : Str) (h : cd_normalize_phone false x = some e) :
    cd_normalize_phone false e = some e := by
  obtain ⟨D, rfl, hD, h8⟩ := cd_shape false x e h
  exact cd_plus_eval D hD h8

/-- Renormalizing an accepted output of clean_google's normalizer returns the
    same number whenever that output has at least 8 digits. -/
theorem g_renorm_fixed (x : Str) (pr : Str × Str)
    (h : g_normalize_phone false x = some pr) (h8 : 8 ≤ (only_digits pr.1).length) :
    ∃ c2, g_normalize_phone false pr.1 = some (pr.1, c2) := by
  obtain ⟨D, hpr, hD⟩ := g_shape false x pr h
  rw [hpr] at h8 ⊢
  rw [only_digits_plus_digits D hD] at h8
  exact g_plus_eval D hD h8

/-! ### Tokenizer lemmas (split before '+') -/

theorem splitPlusAux_join (s acc : Str) : (splitPlusAux acc s).flatten = acc.reverse ++ s := by
  induction s generalizing acc with
  | nil => simp [splitPlusAux]
  | cons c cs ih =>
    by_cases hc : c = '+'
    · subst hc
      simp [splitPlusAux, ih]
    · simp [splitPlusAux, hc, ih]

theorem splitPlus_join (s : Str) : (splitPlus s).flatten = s := by
  simpa using splitPlusAux_join s []

theorem all_pyWs_of_strip_empty (p : Str) (h : (strip p).isEmpty = true) :
    ∀ c ∈ p, pyWs c = true := by
  induction p with
  | nil => simp
  | cons c cs ih =>
    by_cases hc : pyWs c = true
    · have hdw : (c :: cs).dropWhile pyWs = cs.dropWhile pyWs := by
        simp [List.dropWhile_cons, hc]
      rw [strip, hdw] at h
      intro x hx
      rcases List.mem_cons.mp hx with rfl | hx
      · exact hc
      · exact ih h x hx
    · exfalso
      have hdw : (c :: cs).dropWhile pyWs = c :: cs := by
        simp [List.dropWhile_cons, hc]
      rw [strip, hdw, List.isEmpty_iff, List.reverse_eq_nil_iff] at h
      have := List.dropWhile_eq_nil_iff.mp h
      exact hc (by simpa using this c (by simp))

theorem startsW_takeWhile (q : Char → Bool) (s : Str) :
    startsW (s.takeWhile q) s = true :=
  (startsW_iff_append _ _).mpr ⟨s.dropWhile q, (List.takeWhile_append_dropWhile q s).symm⟩

theorem splitPlusAux_shape (s acc : Str) :
    ∃ rest, splitPlusAux acc s =
        (acc.reverse ++ s.takeWhile (fun c => c != '+')) :: rest ∧
      ∀ p ∈ rest, startsW "+".toList p = true := by
  induction s generalizing acc with
  | nil => exact ⟨[], by simp [splitPlusAux], by simp⟩
  | cons c cs ih =>
    by_cases hc : c = '+'
    · subst hc
      obtain ⟨rest, heq, hrest⟩ := ih ['+']
      refine ⟨splitPlusAux ['+'] cs, by simp [splitPlusAux], ?_⟩
      intro p hp
      rw [heq] at hp
      rcases List.mem_cons.mp hp with rfl | hp
      · simp [startsW]
      · exact hrest p hp
    · obtain ⟨rest, heq, hrest⟩ := ih (c :: acc)
      refine ⟨rest, ?_, hrest⟩
      rw [splitPlusAux, if_neg hc, heq]
      simp [List.takeWhile_cons, hc]

/-! ### Main-loop lemmas (deduplication and error tolerance) -/

theorem ml_skip {ρ : Type} (fn : ρ → Str) (pick : ρ → Option Str) (r : ρ)
    (rest : List ρ) (seen : List Str) (h : pick r = none) :
    main_loop fn pick (r :: rest) seen = main_loop fn pick rest seen := by
  simp [main_loop, h]

theorem ml_phones_from_pick {ρ : Type} (fn : ρ → Str) (pick : ρ → Option Str)
    (rows : List ρ) (seen : List Str) (o : OutRow)
    (ho : o ∈ main_loop fn pick rows seen) : ∃ r ∈ rows, pick r = some o.phone := by
  induction rows generalizing seen with
  | nil => simp [main_loop] at ho
  | cons r rest ih =>
    cases hp : pick r with
    | none =>
      rw [ml_skip fn pick r rest seen hp] at ho
      obtain ⟨r2, hr2, h2⟩ := ih seen ho
      exact ⟨r2, List.mem_cons_of_mem _ hr2, h2⟩
    | some p =>
      simp only [main_loop, hp] at ho
      by_cases hmem : p ∈ seen
      · rw [if_pos hmem] at ho
        obtain ⟨r2, hr2, h2⟩ := ih seen ho
        exact ⟨r2, List.mem_cons_of_mem _ hr2, h2⟩
      · rw [if_neg hmem] at ho
        rcases List.mem_cons.mp ho with rfl | ho
        · exact ⟨r, List.mem_cons_self r rest, by simp [hp, mkOutRow]⟩
        · obtain ⟨r2, hr2, h2⟩ := ih (p :: seen) ho
          exact ⟨r2, List.mem_cons_of_mem _ hr2, h2⟩

theorem ml_countP_zero {ρ : Type} (fn : ρ → Str) (pick : ρ → Option Str)
    (rows : List ρ) (seen : List Str) (p : Str) (hp : p ∈ seen) :
    (main_loop fn pick rows seen).countP (fun o => decide (o.phone = p)) = 0 := by
  induction rows generalizing seen with
  | nil => simp [main_loop]
  | cons r rest ih =>
    cases hq : pick r with
    | none => rw [ml_skip fn pick r rest seen hq]; exact ih seen hp
    | some q =>
      simp only [main_loop, hq]
      by_cases hmem : q ∈ seen
      · rw [if_pos hmem]; exact ih seen hp
      · rw [if_neg hmem, List.countP_cons]
        have hne : (decide ((mkOutRow (fn r) q).phone = p)) = false := by
          simp only [mkOutRow, decide_eq_false_iff_not]
          rintro rfl
          exact hmem hp
        simp [hne, ih (q :: seen) (List.mem_cons_of_mem _ hp)]

theorem ml_countP_le_one {ρ : Type} (fn : ρ → Str) (pick : ρ → Option Str)
    (rows : List ρ) (seen : List Str) (p : Str) :
    (main_loop fn pick rows seen).countP (fun o => decide (o.phone = p)) ≤ 1 := by
  induction rows generalizing seen with
  | nil => simp [main_loop]
  | cons r rest ih =>
    cases hq : pick r with
    | none => rw [ml_skip fn pick r rest seen hq]; exact ih seen
    | some q =>
      simp only [main_loop, hq]
      by_cases hmem : q ∈ seen
      · rw [if_pos hmem]; exact ih seen
      · rw [if_neg hmem, List.countP_cons]
        by_cases hqp : q = p
        · subst hqp
          have hz := ml_countP_zero fn pick rest (q :: seen) q (List.mem_cons_self q seen)
          simp [hz, mkOutRow]
        · have hne : (decide ((mkOutRow (fn r) q).phone = p)) = false := by
            simp only [mkOutRow, decide_eq_false_iff_not]
            exact hqp
          simp [hne, ih (q :: seen)]

theorem ml_find {ρ : Type} (fn : ρ → Str) (pick : ρ → Option Str)
    (rows : List ρ) (seen : List Str) (p : Str) (hp : p ∉ seen) :
    (main_loop fn pick rows seen).find? (fun o => decide (o.phone = p)) =
      (rows.find? (fun r => decide (pick r = some p))).map (fun r => mkOutRow (fn r) p) := by
  induction rows generalizing seen with
  | nil => simp [main_loop]
  | cons r rest ih =>
    cases hq : pick r with
    | none =>
      rw [ml_skip fn pick r rest seen hq]
      simp [List.find?_cons, hq, ih seen hp]
    | some q =>
      simp only [main_loop, hq]
      by_cases hmem : q ∈ seen
      · have hqp : q ≠ p := fun h => hp (h ▸ hmem)
        rw [if_pos hmem]
        simp [List.find?_cons, hq, hqp, ih seen hp]
      · rw [if_neg hmem]
        by_cases hqp : q = p
        · subst hqp
          simp [List.find?_cons, hq, mkOutRow]
        · have hp2 : p ∉ q :: seen := by
            simp only [List.mem_cons]
            rintro (rfl | hps)
            · exact hqp rfl
            · exact hp hps
          simp [List.find?_cons, hq, hqp, mkOutRow, ih (q :: seen) hp2]

theorem ml_countP_eq_one {ρ : Type} (fn : ρ → Str) (pick : ρ → Option Str)
    (rows : List ρ) (p : Str) (hex : ∃ r ∈ rows, pick r = some p) :
    (main_loop fn pick rows []).countP (fun o => decide (o.phone = p)) = 1 := by
  have hfind : (rows.find? (fun r => decide (pick r = some p))).isSome := by
    rw [List.find?_isSome]
    obtain ⟨r, hr, hpr⟩ := hex
    exact ⟨r, hr, by simp [hpr]⟩
  have h1 := ml_find fn pick rows [] p (by simp)
  have h2 : ((main_loop fn pick rows []).find? (fun o => decide (o.phone = p))).isSome := by
    rw [h1]
    simpa using hfind
  rw [List.find?_isSome] at h2
  obtain ⟨o, ho, hop⟩ := h2
  have hpos : 0 < (main_loop fn pick rows []).countP (fun o => decide (o.phone = p)) :=
    List.countP_pos_iff.mpr ⟨o, ho, hop⟩
  have hle := ml_countP_le_one fn pick rows [] p
  omega

/-! ### Record-selector lemmas -/

/-- The field loop of pick_best_from_google_row, described by the two
    spec-level searches: first mobile hit, else the running fallback, else the
    first valid number of the remaining fields. -/
theorem pbg_aux_eq (addMx : Bool) (row : List (Str × Str)) (best : Option Str) :
    pbg_aux addMx row best =
      (spec_first_mobile addMx row).or (best.or (spec_first_valid addMx row)) := by
  induction row generalizing best with
  | nil =>
    simp [pbg_aux, spec_first_mobile, spec_first_valid]
  | cons vl rest ih =>
    obtain ⟨v, l⟩ := vl
    by_cases hv : (strip v).isEmpty
    · simp [pbg_aux, spec_first_mobile, spec_first_valid, hv, ih]
    · cases hc : extract_phone_candidates addMx (strip v) with
      | nil => simp [pbg_aux, spec_first_mobile, spec_first_valid, hv, hc, ih]
      | cons c cs =>
        by_cases hm : isMobileLabel (lowerStr l) = true
        · simp [pbg_aux, spec_first_mobile, spec_first_valid, hv, hc, hm]
        · simp only [pbg_aux, spec_first_mobile, spec_first_valid, hv, hc, hm,
            if_false, if_neg hm, Bool.false_eq_true, ih]
          cases best <;> simp [Option.or_assoc]

/-- pick_best_from_google_row implements the spec's Record Selector. -/
theorem pbg_eq_spec (addMx : Bool) (row : List (Str × Str)) :
    pick_best_from_google_row addMx row = spec_record_selector addMx row := by
  rw [pick_best_from_google_row, pbg_aux_eq addMx row none, spec_record_selector]
  cases spec_first_mobile addMx row <;> simp [Option.or]

/-! ### The tuple order used by pick_best_number's sort -/

theorem ltStr_irrefl : ∀ a : Str, ltStr a a = false
  | [] => rfl
  | c :: cs => by simp [ltStr, lt_irrefl, ltStr_irrefl cs]

theorem ltStr_trans : ∀ a b c : Str, ltStr a b = true → ltStr b c = true →
    ltStr a c = true
  | [], [], _, h1, _ => absurd h1 (by simp [ltStr])
  | [], _ :: _, [], _, h2 => absurd h2 (by simp [ltStr])
  | [], _ :: _, _ :: _, _, _ => by simp [ltStr]
  | _ :: _, [], _, h1, _ => absurd h1 (by simp [ltStr])
  | _ :: _, _ :: _, [], _, h2 => absurd h2 (by simp [ltStr])
  | a :: as2, b :: bs, c :: cs, h1, h2 => by
    simp only [ltStr] at h1 h2 ⊢
    rcases lt_trichotomy a b with hab | rfl | hab
    · rcases lt_trichotomy b c with hbc | rfl | hbc
      · rw [if_pos (lt_trans hab hbc)]
      · rw [if_pos hab]
      · rw [if_neg (lt_asymm hbc), if_pos hbc] at h2
        exact absurd h2 (by simp)
    · rw [if_neg (lt_irrefl a), if_neg (lt_irrefl a)] at h1
      rcases lt_trichotomy a c with hac | rfl | hac
      · rw [if_pos hac]
      · rw [if_neg (lt_irrefl a), if_neg (lt_irrefl a)] at h2 ⊢
        exact ltStr_trans as2 bs cs h1 h2
      · rw [if_neg (lt_asymm hac), if_pos hac] at h2
        exact absurd h2 (by simp)
    · rw [if_neg (lt_asymm hab), if_pos hab] at h1
      exact absurd h1 (by simp)

theorem ltStr_asymm_aux (a b : Str) (h : ltStr a b = true) : ¬ ltStr b a = true := by
  intro h2
  have h3 := ltStr_trans a b a h h2
  rw [ltStr_irrefl] at h3
  exact absurd h3 (by simp)

theorem ltStr_trichot : ∀ a b : Str, ltStr a b = true ∨ ltStr b a = true ∨ a = b
  | [], [] => Or.inr (Or.inr rfl)
  | [], _ :: _ => Or.inl (by simp [ltStr])
  | _ :: _, [] => Or.inr (Or.inl (by simp [ltStr]))
  | a :: as2, b :: bs => by
    rcases lt_trichotomy a b with hab | rfl | hab
    · exact Or.inl (by simp [ltStr, hab])
    · rcases ltStr_trichot as2 bs with h | h | rfl
      · exact Or.inl (by simp [ltStr, lt_irrefl, h])
      · exact Or.inr (Or.inl (by simp [ltStr, lt_irrefl, h]))
      · exact Or.inr (Or.inr rfl)
    · exact Or.inr (Or.inl (by simp [ltStr, hab]))

theorem tupLt_iff (x y : Cand) : tupLt x y = true ↔
    (x.1 < y.1 ∨ (x.1 = y.1 ∧ (ltStr x.2.1 y.2.1 = true ∨
      (x.2.1 = y.2.1 ∧ ltStr x.2.2 y.2.2 = true)))) := by
  dsimp only [tupLt]
  split_ifs with h1 h2 h3 h4
  · simp [h1]
  · simp only [Bool.false_eq_true, false_iff]
    rintro (h | ⟨he, -⟩)
    · exact h1 h
    · omega
  · have he : x.1 = y.1 := by omega
    simp [he, h3]
  · simp only [Bool.false_eq_true, false_iff]
    rintro (h | ⟨he, h | ⟨he2, -⟩⟩)
    · exact h1 h
    · exact h3 h
    · rw [he2, ltStr_irrefl] at h4
      exact absurd h4 (by simp)
  · have he : x.1 = y.1 := by omega
    have he2 : x.2.1 = y.2.1 := by
      rcases ltStr_trichot x.2.1 y.2.1 with h | h | h
      · exact absurd h h3
      · exact absurd h h4
      · exact h
    simp [he, he2, h3, ltStr_irrefl]

theorem tupLt_irrefl (x : Cand) : tupLt x x = false := by
  cases h : tupLt x x
  · rfl
  · exfalso
    rcases (tupLt_iff x x).mp h with h2 | ⟨-, h2 | ⟨-, h2⟩⟩
    · omega
    · rw [ltStr_irrefl] at h2
      exact absurd h2 (by simp)
    · rw [ltStr_irrefl] at h2
      exact absurd h2 (by simp)

theorem tupLt_trans (x y z : Cand) (h1 : tupLt x y = true) (h2 : tupLt y z = true) :
    tupLt x z = true := by
  rw [tupLt_iff] at h1 h2 ⊢
  rcases h1 with hn | ⟨he, hs⟩
  · rcases h2 with hn2 | ⟨he2, -⟩
    · exact Or.inl (by omega)
    · exact Or.inl (by omega)
  · rcases h2 with hn2 | ⟨he2, hs2⟩
    · exact Or.inl (by omega)
    · refine Or.inr ⟨by omega, ?_⟩
      rcases hs with hl | ⟨hse, hl⟩
      · rcases hs2 with hl2 | ⟨hse2, hl2⟩
        · exact Or.inl (ltStr_trans _ _ _ hl hl2)
        · exact Or.inl (by rw [← hse2]; exact hl)
      · rcases hs2 with hl2 | ⟨hse2, hl2⟩
        · exact Or.inl (by rw [hse]; exact hl2)
        · exact Or.inr ⟨hse.trans hse2, ltStr_trans _ _ _ hl hl2⟩

theorem tupLt_trichot (x y : Cand) :
    tupLt x y = true ∨ tupLt y x = true ∨ x = y := by
  rcases Nat.lt_trichotomy x.1 y.1 with hn | hn | hn
  · exact Or.inl ((tupLt_iff x y).mpr (Or.inl hn))
  · rcases ltStr_trichot x.2.1 y.2.1 with hs | hs | hs
    · exact Or.inl ((tupLt_iff x y).mpr (Or.inr ⟨hn, Or.inl hs⟩))
    · exact Or.inr (Or.inl ((tupLt_iff y x).mpr (Or.inr ⟨hn.symm, Or.inl hs⟩)))
    · rcases ltStr_trichot x.2.2 y.2.2 with ht | ht | ht
      · exact Or.inl ((tupLt_iff x y).mpr (Or.inr ⟨hn, Or.inr ⟨hs, ht⟩⟩))
      · exact Or.inr (Or.inl ((tupLt_iff y x).mpr (Or.inr ⟨hn.symm, Or.inr ⟨hs.symm, ht⟩⟩)))
      · refine Or.inr (Or.inr ?_)
        obtain ⟨x1, x2, x3⟩ := x
        obtain ⟨y1, y2, y3⟩ := y
        simp only at hn hs ht
        rw [hn, hs, ht]
  · exact Or.inr (Or.inl ((tupLt_iff y x).mpr (Or.inl hn)))

theorem tupLt_asymm (x y : Cand) (h : tupLt x y = true) : tupLt y x = false := by
  cases h2 : tupLt y x
  · rfl
  · have h3 := tupLt_trans x y x h h2
    rw [tupLt_irrefl] at h3
    exact absurd h3 (by simp)

theorem mem_insertDesc (x a : Cand) : ∀ l : List Cand, a ∈ insertDesc x l ↔ a = x ∨ a ∈ l
  | [] => by simp [insertDesc]
  | y :: ys => by
    by_cases h : tupLt y x = true
    · simp [insertDesc, h]
    · simp only [insertDesc, h, if_false, Bool.false_eq_true, List.mem_cons,
        mem_insertDesc x a ys]
      tauto

theorem notLt_of_gt_notLt (y x z : Cand) (h1 : tupLt y x = true)
    (h2 : tupLt y z = false) : tupLt x z = false := by
  cases h3 : tupLt x z
  · rfl
  · have h4 := tupLt_trans y x z h1 h3
    rw [h4] at h2
    exact absurd h2 (by simp)

theorem insertDesc_sorted (x : Cand) : ∀ l, DescSorted l → DescSorted (insertDesc x l)
  | [], _ => by simp [insertDesc, DescSorted]
  | y :: ys, hs => by
    rw [DescSorted, List.pairwise_cons] at hs
    obtain ⟨hy, hys⟩ := hs
    by_cases h : tupLt y x = true
    · simp only [insertDesc, h, if_true]
      rw [DescSorted, List.pairwise_cons]
      refine ⟨?_, List.pairwise_cons.mpr ⟨hy, hys⟩⟩
      intro z hz
      rcases List.mem_cons.mp hz with rfl | hz
      · exact tupLt_asymm z x h
      · exact notLt_of_gt_notLt y x z h (hy z hz)
    · simp only [insertDesc, h, if_false, Bool.false_eq_true]
      rw [DescSorted, List.pairwise_cons]
      refine ⟨?_, insertDesc_sorted x ys hys⟩
      intro z hz
      rcases (mem_insertDesc x z ys).mp hz with rfl | hz
      · simpa using h
      · exact hy z hz

theorem sortDesc_core (l : List Cand) : ∀ acc, DescSorted acc →
    DescSorted (l.foldl (fun acc x => insertDesc x acc) acc) ∧
      (∀ a, a ∈ l.foldl (fun acc x => insertDesc x acc) acc ↔ a ∈ acc ∨ a ∈ l) := by
  induction l with
  | nil =>
    intro acc h
    exact ⟨h, by simp⟩
  | cons x xs ih =>
    intro acc h
    obtain ⟨h1, h2⟩ := ih (insertDesc x acc) (insertDesc_sorted x acc h)
    refine ⟨h1, fun a => ?_⟩
    rw [List.foldl_cons, h2 a, mem_insertDesc]
    simp only [List.mem_cons]
    tauto

theorem sortDesc_head_max (l : List Cand) (hd : Cand) (tl : List Cand)
    (h : sortDesc l = hd :: tl) (y : Cand) (hy : y ∈ l) : tupLt hd y = false := by
  obtain ⟨hsort, hmem⟩ := sortDesc_core l [] (by simp [DescSorted])
  rw [sortDesc] at h
  have hy2 : y ∈ hd :: tl := by
    rw [← h]
    exact (hmem y).mpr (Or.inr hy)
  rcases List.mem_cons.mp hy2 with rfl | hy2
  · exact tupLt_irrefl _
  · rw [h, DescSorted, List.pairwise_cons] at hsort
    exact hsort.1 y hy2

/-- pick_best_number returns a candidate that is maximal in the
    (score, number, country) lexicographic tuple order. -/
theorem pick_best_number_max (addMx : Bool) (row : List (Str × Str)) (e c : Str)
    (h : pick_best_number addMx row = some (e, c)) :
    ∃ s : Nat, (s, e, c) ∈ g_collect addMx row ∧
      ∀ t ∈ g_collect addMx row, tupLt (s, e, c) t = false := by
  rw [pick_best_number] at h
  cases hs : sortDesc (g_collect addMx row) with
  | nil =>
    rw [hs] at h
    exact absurd h (by simp)
  | cons c0 tl =>
    rw [hs] at h
    have hinj := Option.some.inj h
    have he : c0.2.1 = e := congrArg Prod.fst hinj
    have hc : c0.2.2 = c := congrArg Prod.snd hinj
    have hc0 : (c0.1, e, c) = c0 := by rw [← he, ← hc]
    obtain ⟨-, hmem⟩ := sortDesc_core (g_collect addMx row) [] (by simp [DescSorted])
    have hmem0 : c0 ∈ g_collect addMx row := by
      have hin : c0 ∈ sortDesc (g_collect addMx row) := by
        rw [hs]
        exact List.mem_cons_self c0 tl
      rw [sortDesc] at hin
      rcases (hmem c0).mp hin with hfalse | hok
      · simp at hfalse
      · exact hok
    refine ⟨c0.1, ?_, ?_⟩
    · rw [hc0]
      exact hmem0
    · intro t ht
      rw [hc0]
      exact sortDesc_head_max _ c0 tl hs t ht

theorem tokenize_preserves_nonws (text : Str) (c : Char) (hc : c ∈ text)
    (hw : pyWs c = false) : ∃ tok ∈ tokenize text, c ∈ tok := by
  rw [tokenize]
  by_cases h : 1 < text.count '+'
  · rw [if_pos h]
    have hc2 : c ∈ (splitPlus text).flatten := by
      rw [splitPlus_join text]
      exact hc
    rw [List.mem_flatten] at hc2
    obtain ⟨p, hp, hcp⟩ := hc2
    refine ⟨p, ?_, hcp⟩
    rw [List.mem_filter]
    refine ⟨hp, ?_⟩
    cases he : (strip p).isEmpty
    · simp
    · have hws := all_pyWs_of_strip_empty p he c hcp
      rw [hw] at hws
      exact absurd hws (by simp)
  · rw [if_neg h]
    exact ⟨text, by simp, hc⟩

theorem tokenize_piece_shape (text tok : Str) (h : 1 < text.count '+')
    (ht : tok ∈ tokenize text) :
    startsW "+".toList tok = true ∨ startsW tok text = true := by
  rw [tokenize, if_pos h] at ht
  have hp := (List.mem_filter.mp ht).1
  obtain ⟨rest, heq, hrest⟩ := splitPlusAux_shape text []
  rw [splitPlus, heq] at hp
  rcases List.mem_cons.mp hp with rfl | hp
  · right
    simpa using startsW_takeWhile (fun c => c != '+') text
  · exact Or.inl (hrest tok hp)

/-! ### The claims -/

/-- C1 (amended): every NormalizedNumber produced by clean_duplicates'
    normalize_phone begins with '+' followed by at least 8 digits and nothing
    else; a candidate with at least 8 digits that reaches the
    generic-international rule yields '+' followed by ALL of the candidate's
    digits — the code performs no truncation to 15 digits. -/
theorem C1_theorem :
    (∀ (addMx : Bool) (raw e : Str), cd_normalize_phone addMx raw = some e →
      ∃ D, e = '+' :: D ∧ D.all isDig = true ∧ 8 ≤ D.length) ∧
    (∀ (addMx : Bool) (raw : Str),
      startsW "+".toList (strip raw) = false →
      8 ≤ (only_digits (strip raw)).length →
      ¬ (startsW "52".toList (only_digits (strip raw)) = true ∧
          ((only_digits (strip raw)).length = 12 ∨ (only_digits (strip raw)).length = 13)) →
      ¬ ((only_digits (strip raw)).length = 11 ∧
          startsW "1".toList (only_digits (strip raw)) = true) →
      (only_digits (strip raw)).length ≠ 10 →
      cd_normalize_phone addMx raw = some ('+' :: only_digits (strip raw))) := by
  refine ⟨cd_shape, ?_⟩
  intro addMx raw hplus h8 hmx h11 h10
  have hne : raw.isEmpty = false := by
    cases hr : raw with
    | nil =>
      rw [hr] at h8
      simp [strip, only_digits] at h8
    | cons a l => rfl
  have hne2 : ¬ ((only_digits (strip raw)).isEmpty = true) := by
    rw [List.isEmpty_iff]
    intro h
    rw [h] at h8
    simp at h8
  rw [cd_noplus addMx raw hne hplus, if_neg hne2, if_neg hmx, if_neg h11, if_neg h10,
    if_pos h8]

/-- C1 counterexample: a bare 16-digit candidate reaches the
    generic-international rule and is returned with all 16 digits — more than
    the 15-digit E.164 ceiling the claim asserts. -/
theorem C1_counterexample :
    cd_normalize_phone false ("1234567890123456".toList) =
      some ("+1234567890123456".toList) ∧
    15 < (("+1234567890123456".toList).drop 1).length := ⟨by decide, by decide⟩

theorem C1_witness :
    cd_normalize_phone false ("1234567890123456".toList) =
      some ('+' :: only_digits (strip ("1234567890123456".toList))) ∧
    ∃ D, ("+12345678".toList : Str) = '+' :: D ∧ D.all isDig = true ∧ 8 ≤ D.length :=
  ⟨C1_theorem.2 false ("1234567890123456".toList) (by decide) (by decide) (by decide)
      (by decide) (by decide),
   C1_theorem.1 false ("+12345678".toList) ("+12345678".toList) (by decide)⟩

/-- C2 (amended): pick_best_from_google_row implements the claimed Record
    Selector exactly (first mobile-labelled field with a candidate wins
    immediately, else the first valid number in field order); pick_best_number
    instead returns a candidate that is maximal in the lexicographic
    (score, number, country) order — score 2 for mobile-like labels, ties
    broken toward the largest number string, not field order. -/
theorem C2_theorem :
    (∀ (addMx : Bool) (row : List (Str × Str)),
      pick_best_from_google_row addMx row = spec_record_selector addMx row) ∧
    (∀ (addMx : Bool) (row : List (Str × Str)) (e c : Str),
      pick_best_number addMx row = some (e, c) →
      ∃ s : Nat, (s, e, c) ∈ g_collect addMx row ∧
        ∀ t ∈ g_collect addMx row, tupLt (s, e, c) t = false) :=
  ⟨pbg_eq_spec, pick_best_number_max⟩

/-- C2 counterexample: two non-mobile fields; the first yields +12145551212
    but pick_best_number returns +19995551212, the lexicographically larger
    number, not the first valid number in field order. -/
theorem C2_counterexample :
    pick_best_number false
        [("2145551212".toList, "home".toList), ("9995551212".toList, "home".toList)] =
      some ("+19995551212".toList, "US".toList) ∧
    g_normalize_phone false (strip ("2145551212".toList)) =
      some ("+12145551212".toList, "US".toList) ∧
    ¬ (("+19995551212".toList : Str) = "+12145551212".toList) :=
  ⟨by decide, by decide, by decide⟩

theorem C2_witness :
    pick_best_from_google_row false
        [("2145551212".toList, "Home".toList), ("8175550000".toList, "Mobile".toList)] =
      spec_record_selector false
        [("2145551212".toList, "Home".toList), ("8175550000".toList, "Mobile".toList)] ∧
    ∃ s : Nat, (s, "+19995551212".toList, "US".toList) ∈
        g_collect false
          [("2145551212".toList, "home".toList), ("9995551212".toList, "home".toList)] ∧
      ∀ t ∈ g_collect false
          [("2145551212".toList, "home".toList), ("9995551212".toList, "home".toList)],
        tupLt (s, "+19995551212".toList, "US".toList) t = false :=
  ⟨C2_theorem.1 false _,
   C2_theorem.2 false _ ("+19995551212".toList) ("US".toList) (by decide)⟩

/-- C3: across a batch, each normalized number appears exactly once in the
    output when some record yields it; the single output row is built from the
    earliest such record (its Name, with the constant Channel/OptIn), later
    occurrences being discarded. -/
theorem C3_theorem :
    ∀ (ρ : Type) (fn : ρ → Str) (pick : ρ → Option Str) (rows : List ρ) (p : Str),
      (∃ r ∈ rows, pick r = some p) →
      (main_loop fn pick rows []).countP (fun o => decide (o.phone = p)) = 1 ∧
      (main_loop fn pick rows []).find? (fun o => decide (o.phone = p)) =
        (rows.find? (fun r => decide (pick r = some p))).map (fun r => mkOutRow (fn r) p) :=
  fun ρ fn pick rows p hex =>
    ⟨ml_countP_eq_one fn pick rows p hex, ml_find fn pick rows [] p (by simp)⟩

theorem C3_witness :
    (main_loop (fun b : Bool => if b then "B".toList else "A".toList)
        (fun _ => some ("+12145551212".toList)) [false, true] []).countP
        (fun o => decide (o.phone = "+12145551212".toList)) = 1 ∧
    (main_loop (fun b : Bool => if b then "B".toList else "A".toList)
        (fun _ => some ("+12145551212".toList)) [false, true] []).find?
        (fun o => decide (o.phone = "+12145551212".toList)) =
      (([false, true]).find?
          (fun r => decide ((fun _ : Bool => some ("+12145551212".toList)) r =
            some ("+12145551212".toList)))).map
        (fun r => mkOutRow ((fun b : Bool => if b then "B".toList else "A".toList) r)
          ("+12145551212".toList)) :=
  C3_theorem Bool (fun b : Bool => if b then "B".toList else "A".toList)
    (fun _ => some ("+12145551212".toList)) [false, true] ("+12145551212".toList)
    ⟨false, by decide, rfl⟩

/-- C4 (amended): the glued input "+18173070515" ++ "8175648524" yields FOUR
    distinct candidates, not two: the direct regex match, two further 11-digit
    sliding windows anchored at interior '1' digits, and the whole-field
    fallback of all 21 digits; the second constituent number +18175648524 is
    not recovered. -/
theorem C4_theorem :
    extract_phone_candidates false (("+18173070515" ++ "8175648524").toList) =
      ["+18173070515".toList, "+17307051581".toList, "+15817564852".toList,
        "+181730705158175648524".toList] := by decide

/-- C4 counterexample: the extractor does not yield two candidates on the
    glued input — it yields four. -/
theorem C4_counterexample :
    (extract_phone_candidates false (("+18173070515" ++ "8175648524").toList)).length ≠ 2 := by
  decide

/-- C5 (amended): for digit-only inputs, clean_duplicates' normalizer maps a
    10-digit input d to "+1" ++ d and an 11-digit input starting with '1' to
    "+1" plus its last 10 digits; clean_google's normalizer does the same
    except that a 10-digit input beginning with "00" or "011" is captured by
    the international-prefix branches first. -/
theorem C5_theorem :
    (∀ (addMx : Bool) (d : Str), d.all isDig = true → d.length = 10 →
      cd_normalize_phone addMx d = some ("+1".toList ++ d)) ∧
    (∀ (addMx : Bool) (d : Str), d.all isDig = true → d.length = 11 →
      startsW "1".toList d = true →
      cd_normalize_phone addMx d = some ("+1".toList ++ d.drop 1)) ∧
    (∀ (addMx : Bool) (d : Str), d.all isDig = true → d.length = 10 →
      startsW "00".toList d = false → startsW "011".toList d = false →
      g_normalize_phone addMx d = some ("+1".toList ++ d, "US".toList)) ∧
    (∀ (addMx : Bool) (d : Str), d.all isDig = true → d.length = 11 →
      startsW "1".toList d = true →
      g_normalize_phone addMx d = some ("+1".toList ++ d.drop 1, "US".toList)) := by
  have key : ∀ (d : Str), d.all isDig = true → d ≠ [] →
      d.isEmpty = false ∧ strip d = d ∧ only_digits d = d ∧
        startsW "+".toList (strip d) = false := by
    intro d hd hdne
    have hstrip := strip_of_all_digits d hd
    refine ⟨?_, hstrip, only_digits_eq_self d hd, ?_⟩
    · cases d
      · exact absurd rfl hdne
      · rfl
    · rw [hstrip]
      exact startsW_plus_eq_false d hd hdne
  refine ⟨?_, ?_, ?_, ?_⟩
  · intro addMx d hd hlen
    have hdne : d ≠ [] := by
      intro h
      rw [h] at hlen
      simp at hlen
    obtain ⟨hne, hstrip, honly, hplus⟩ := key d hd hdne
    rw [cd_noplus addMx d hne hplus, hstrip, honly]
    rw [if_neg (by rw [List.isEmpty_iff]; intro h; rw [h] at hlen; simp at hlen)]
    rw [if_neg (by rintro ⟨-, h | h⟩ <;> omega)]
    rw [if_neg (by rintro ⟨h, -⟩; omega)]
    rw [if_pos hlen]
  · intro addMx d hd hlen hstart
    have hdne : d ≠ [] := by
      intro h
      rw [h] at hlen
      simp at hlen
    obtain ⟨hne, hstrip, honly, hplus⟩ := key d hd hdne
    rw [cd_noplus addMx d hne hplus, hstrip, honly]
    rw [if_neg (by rw [List.isEmpty_iff]; intro h; rw [h] at hlen; simp at hlen)]
    rw [if_neg (by rintro ⟨-, h | h⟩ <;> omega)]
    rw [if_pos ⟨hlen, hstart⟩]
  · intro addMx d hd hlen h00 h011
    have hdne : d ≠ [] := by
      intro h
      rw [h] at hlen
      simp at hlen
    obtain ⟨hne, hstrip, honly, hplus⟩ := key d hd hdne
    rw [g_noplus addMx d hne (by rw [hplus]; simp) (by rw [hstrip]; exact h00),
      hstrip, honly]
    rw [if_neg (by rw [h011]; simp)]
    rw [if_neg (by rintro ⟨h, -⟩; omega)]
    rw [if_pos hlen]
  · intro addMx d hd hlen hstart
    have hdne : d ≠ [] := by
      intro h
      rw [h] at hlen
      simp at hlen
    obtain ⟨hne, hstrip, honly, hplus⟩ := key d hd hdne
    have h00 : startsW "00".toList d = false :=
      startsW_head_false '1' '0' [] ("0".toList) d (by decide) hstart
    have h011 : startsW "011".toList d = false :=
      startsW_head_false '1' '0' [] ("11".toList) d (by decide) hstart
    rw [g_noplus addMx d hne (by rw [hplus]; simp) (by rw [hstrip]; exact h00),
      hstrip, honly]
    rw [if_neg (by rw [h011]; simp)]
    rw [if_pos ⟨hlen, hstart⟩]

/-- C5 counterexample: the 10-digit input "0012345678" is captured by
    clean_google's 00-international branch and yields +12345678, not
    "+1" ++ "0012345678". -/
theorem C5_counterexample :
    g_normalize_phone false ("0012345678".toList) =
      some ("+12345678".toList, "INTL".toList) ∧
    ¬ ((g_normalize_phone false ("0012345678".toList)).map (fun pr => pr.1) =
        some ("+1".toList ++ "0012345678".toList)) :=
  ⟨by decide, by decide⟩

theorem C5_witness :
    cd_normalize_phone false ("2145551212".toList) =
      some ("+1".toList ++ "2145551212".toList) ∧
    g_normalize_phone false ("12145551212".toList) =
      some ("+1".toList ++ ("12145551212".toList).drop 1, "US".toList) :=
  ⟨C5_theorem.1 false ("2145551212".toList) (by decide) (by decide),
   C5_theorem.2.2.2 false ("12145551212".toList) (by decide) (by decide) (by decide)⟩

/-- C6: on "52 55 1234 5678" both normalizers return +525512345678 (tagged MX)
    with the disambiguator disabled and +5215512345678 with it enabled; in the
    Mexico branch the '1' is inserted after '52' exactly when the digits do
    not already start with '521' and exactly 10 digits follow the '52'. -/
theorem C6_theorem :
    cd_normalize_phone false ("52 55 1234 5678".toList) = some ("+525512345678".toList) ∧
    cd_normalize_phone true ("52 55 1234 5678".toList) = some ("+5215512345678".toList) ∧
    country_from_e164 ("+525512345678".toList) = "MX".toList ∧
    country_from_e164 ("+5215512345678".toList) = "MX".toList ∧
    g_normalize_phone false ("52 55 1234 5678".toList) =
      some ("+525512345678".toList, "MX".toList) ∧
    g_normalize_phone true ("52 55 1234 5678".toList) =
      some ("+5215512345678".toList, "MX".toList) ∧
    (∀ d : Str, d.all isDig = true → startsW "52".toList d = true →
      (d.length = 12 ∨ d.length = 13) →
      cd_normalize_phone true d =
        some (if ¬ startsW "521".toList d = true ∧ (d.drop 2).length = 10
          then "+521".toList ++ d.drop 2 else '+' :: d)) := by
  refine ⟨by decide, by decide, by decide, by decide, by decide, by decide, ?_⟩
  intro d hd h52 hlen
  have hdne : d ≠ [] := by
    intro h
    rw [h] at hlen
    simp at hlen
  have hstrip := strip_of_all_digits d hd
  have hne : d.isEmpty = false := by
    cases d
    · exact absurd rfl hdne
    · rfl
  have hplus : startsW "+".toList (strip d) = false := by
    rw [hstrip]
    exact startsW_plus_eq_false d hd hdne
  rw [cd_noplus true d hne hplus, hstrip, only_digits_eq_self d hd]
  rw [if_neg (by rw [List.isEmpty_iff]; intro h; rw [h] at hlen; simp at hlen)]
  rw [if_pos ⟨h52, hlen⟩]
  by_cases hins : ¬ startsW "521".toList d = true ∧ (d.drop 2).length = 10
  · rw [if_pos ⟨rfl, hins.1, hins.2⟩, if_pos hins]
  · rw [if_neg (by rintro ⟨-, h1, h2⟩; exact hins ⟨h1, h2⟩), if_neg hins]

theorem C6_witness :
    cd_normalize_phone true ("525512345678".toList) =
      some (if ¬ startsW "521".toList ("525512345678".toList) = true ∧
          (("525512345678".toList).drop 2).length = 10
        then "+521".toList ++ ("525512345678".toList).drop 2
        else '+' :: "525512345678".toList) :=
  C6_theorem.2.2.2.2.2.2 ("525512345678".toList) (by decide) (by decide) (by decide)

/-- C7 (amended): "+14155551212" is returned unchanged by both normalizers;
    clean_duplicates' normalizer (with the configured ADD_MX_MOBILE_ONE =
    False) is idempotent on every accepted input, and clean_google's is
    idempotent on every accepted input whose result keeps at least 8 digits —
    its 00/011 branches can produce shorter results on which renormalization
    fails. -/
theorem C7_theorem :
    cd_normalize_phone false ("+14155551212".toList) = some ("+14155551212".toList) ∧
    g_normalize_phone false ("+14155551212".toList) =
      some ("+14155551212".toList, "US".toList) ∧
    (∀ x e : Str, cd_normalize_phone false x = some e →
      cd_normalize_phone false e = some e) ∧
    (∀ (x : Str) (pr : Str × Str), g_normalize_phone false x = some pr →
      8 ≤ (only_digits pr.1).length →
      ∃ c2, g_normalize_phone false pr.1 = some (pr.1, c2)) :=
  ⟨by decide, by decide, cd_renorm_fixed, g_renorm_fixed⟩

/-- C7 counterexample: "0012345" is accepted by clean_google's normalizer with
    result +12345, but renormalizing +12345 fails — Normalize ∘ Normalize ≠
    Normalize on this accepted input. -/
theorem C7_counterexample :
    g_normalize_phone false ("0012345".toList) = some ("+12345".toList, "INTL".toList) ∧
    g_normalize_phone false ("+12345".toList) = none :=
  ⟨by decide, by decide⟩

theorem C7_witness :
    cd_normalize_phone false ("+525512345678".toList) = some ("+525512345678".toList) ∧
    ∃ c2, g_normalize_phone false ("+12145551212".toList, "US".toList).1 =
      some (("+12145551212".toList, "US".toList).1, c2) :=
  ⟨C7_theorem.2.2.1 ("52 55 1234 5678".toList) ("+525512345678".toList) (by decide),
   C7_theorem.2.2.2 ("2145551212".toList) ("+12145551212".toList, "US".toList)
     (by decide) (by decide)⟩

/-- C8 (amended): the tokenizer keeps every non-whitespace character of the
    field in some token (a piece consisting only of whitespace is dropped by
    the `p.strip()` filter); with at most one '+' the whole field is the sole
    token; with more than one '+' every token either starts with '+' or is the
    leading prefix of the field before its first '+'. -/
theorem C8_theorem :
    (∀ (text : Str) (c : Char), c ∈ text → pyWs c = false →
      ∃ tok ∈ tokenize text, c ∈ tok) ∧
    (∀ text : Str, text.count '+' ≤ 1 → tokenize text = [text]) ∧
    (∀ (text tok : Str), 1 < text.count '+' → tok ∈ tokenize text →
      startsW "+".toList tok = true ∨ startsW tok text = true) := by
  refine ⟨tokenize_preserves_nonws, ?_, tokenize_piece_shape⟩
  intro text h
  rw [tokenize, if_neg (by omega)]

/-- C8 counterexample: in " +11111111111+22222222222" the leading space falls
    into a whitespace-only piece, which the tokenizer drops — the claim that
    no character is ever discarded fails. -/
theorem C8_counterexample :
    ¬ (∀ c ∈ (" +11111111111+22222222222".toList),
        ∃ tok ∈ tokenize (" +11111111111+22222222222".toList), c ∈ tok) := by
  decide

theorem C8_witness :
    (∃ tok ∈ tokenize ("+12145551212 +525512345678".toList), '4' ∈ tok) ∧
    tokenize ("(214) 555-1212".toList) = [("(214) 555-1212".toList)] :=
  ⟨C8_theorem.1 ("+12145551212 +525512345678".toList) '4' (by decide) (by decide),
   C8_theorem.2.1 ("(214) 555-1212".toList) (by decide)⟩

/-- C9 (amended): every NONEMPTY batch completes and returns a result; a
    record whose picker yields nothing is skipped (the loop continues with the
    remaining rows) rather than emitted with an empty phone, and every emitted
    phone comes from some record's picker.  The empty batch, however, aborts:
    the schema test rows[0] raises IndexError. -/
theorem C9_theorem :
    (∀ (ρ : Type) (hasCol : ρ → Bool) (fn : ρ → Str) (pS pG : ρ → Option Str)
        (rows : List ρ), rows ≠ [] → (cd_main hasCol fn pS pG rows).isSome = true) ∧
    (∀ (ρ : Type) (fn : ρ → Str) (pick : ρ → Option Str) (r : ρ) (rest : List ρ)
        (seen : List Str), pick r = none →
      main_loop fn pick (r :: rest) seen = main_loop fn pick rest seen) ∧
    (∀ (ρ : Type) (fn : ρ → Str) (pick : ρ → Option Str) (rows : List ρ)
        (seen : List Str) (o : OutRow), o ∈ main_loop fn pick rows seen →
      ∃ r ∈ rows, pick r = some o.phone) := by
  refine ⟨?_, ?_, ?_⟩
  · intro ρ hasCol fn pS pG rows hne
    cases rows with
    | nil => exact absurd rfl hne
    | cons r rest => simp [cd_main]
  · intro ρ fn pick r rest seen h
    exact ml_skip fn pick r rest seen h
  · intro ρ fn pick rows seen o ho
    exact ml_phones_from_pick fn pick rows seen o ho

/-- C9 counterexample: on the empty batch, main aborts in schema detection
    (rows[0] raises IndexError, modelled as none) — it does not complete. -/
theorem C9_counterexample :
    cd_main (fun _ : Nat => true) (fun _ => []) (fun _ => none) (fun _ => none)
      ([] : List Nat) = none := rfl

theorem C9_witness :
    (cd_main (fun _ : Nat => true) (fun _ => [])
        (fun _ => some ("+12145551212".toList)) (fun _ => none) [0]).isSome = true ∧
    main_loop (fun _ : Nat => []) (fun _ => none) [0] [] =
      main_loop (fun _ : Nat => []) (fun _ => none) ([] : List Nat) [] ∧
    ∃ r ∈ [0], (fun _ : Nat => some ("+12145551212".toList)) r =
      some (mkOutRow [] ("+12145551212".toList)).phone :=
  ⟨C9_theorem.1 Nat (fun _ => true) (fun _ => [])
      (fun _ => some ("+12145551212".toList)) (fun _ => none) [0] (by simp),
   C9_theorem.2.1 Nat (fun _ => []) (fun _ => none) 0 [] [] rfl,
   C9_theorem.2.2 Nat (fun _ => []) (fun _ => some ("+12145551212".toList)) [0] []
     (mkOutRow [] ("+12145551212".toList)) (by decide)⟩

/-- C10 (amended): an input starting with "00" has the prefix cut and the
    remainder normalized (MX when the remaining digits start with 52, subject
    to the disambiguator rule, else INTL), with no minimum-length check; an
    input whose digit sequence starts with "011" is treated the same way with
    the three digits cut — PROVIDED the input does not already satisfy the
    '+'-prefixed branch (stripped input starting '+' with at least 8 digits),
    which takes priority and keeps the digits intact. -/
theorem C10_theorem :
    (∀ (addMx : Bool) (raw : Str), startsW "00".toList raw = true →
      g_normalize_phone addMx raw =
        (if startsW "52".toList (only_digits ((strip raw).drop 2)) = true then
          if addMx = true ∧ ((only_digits ((strip raw).drop 2)).drop 2).length = 10 ∧
              ¬ startsW "521".toList (only_digits ((strip raw).drop 2)) = true then
            some ("+521".toList ++ (only_digits ((strip raw).drop 2)).drop 2, "MX".toList)
          else some ("+52".toList ++ (only_digits ((strip raw).drop 2)).drop 2, "MX".toList)
         else some ('+' :: only_digits ((strip raw).drop 2), "INTL".toList))) ∧
    (∀ (addMx : Bool) (raw : Str),
      startsW "011".toList (only_digits raw) = true →
      ¬ (startsW "+".toList (strip raw) = true ∧ 8 ≤ (only_digits raw).length) →
      g_normalize_phone addMx raw =
        (if startsW "52".toList ((only_digits raw).drop 3) = true then
          if addMx = true ∧ (((only_digits raw).drop 3).drop 2).length = 10 ∧
              ¬ startsW "521".toList ((only_digits raw).drop 3) = true then
            some ("+521".toList ++ ((only_digits raw).drop 3).drop 2, "MX".toList)
          else some ("+52".toList ++ ((only_digits raw).drop 3).drop 2, "MX".toList)
         else some ('+' :: (only_digits raw).drop 3, "INTL".toList))) := by
  refine ⟨g_00, ?_⟩
  intro addMx raw h011 hplus
  have hne : raw.isEmpty = false := by
    cases hr : raw with
    | nil =>
      rw [hr] at h011
      simp [only_digits, startsW] at h011
    | cons a l => rfl
  have hds : only_digits (strip raw) = only_digits raw := only_digits_strip raw
  have h00 : startsW "00".toList (strip raw) = false := by
    cases h0 : startsW "00".toList (strip raw)
    · rfl
    · exfalso
      obtain ⟨t, ht⟩ := (startsW_iff_append _ _).mp h0
      have hodg : only_digits (strip raw) = '0' :: '0' :: only_digits t := by
        rw [ht]
        simp [only_digits, List.filter_cons, show isDig '0' = true from by decide]
      rw [← hds, hodg] at h011
      simp [startsW] at h011
  rw [g_noplus addMx raw hne (by rw [hds]; exact hplus) h00, hds, if_pos h011]

/-- C10 counterexample: "+0112345678" has a digit sequence starting with 011,
    but the '+'-prefixed branch returns it whole — the 011 prefix is NOT
    stripped, refuting the unconditional claim. -/
theorem C10_counterexample :
    g_normalize_phone false ("+0112345678".toList) =
      some ("+0112345678".toList, "INTL".toList) ∧
    startsW "011".toList (only_digits ("+0112345678".toList)) = true ∧
    ¬ ((g_normalize_phone false ("+0112345678".toList)).map (fun pr => pr.1) =
        some ('+' :: (only_digits ("+0112345678".toList)).drop 3)) :=
  ⟨by decide, by decide, by decide⟩

theorem C10_witness :
    g_normalize_phone false ("0012345".toList) =
      (if startsW "52".toList (only_digits ((strip ("0012345".toList)).drop 2)) = true then
        if False ∧ ((only_digits ((strip ("0012345".toList)).drop 2)).drop 2).length = 10 ∧
            ¬ startsW "521".toList (only_digits ((strip ("0012345".toList)).drop 2)) = true then
          some ("+521".toList ++ (only_digits ((strip ("0012345".toList)).drop 2)).drop 2,
            "MX".toList)
        else some ("+52".toList ++ (only_digits ((strip ("0012345".toList)).drop 2)).drop 2,
          "MX".toList)
       else some ('+' :: only_digits ((strip ("0012345".toList)).drop 2), "INTL".toList)) ∧
    g_normalize_phone false ("011525512345678".toList) =
      (if startsW "52".toList ((only_digits ("011525512345678".toList)).drop 3) = true then
        if False ∧ (((only_digits ("011525512345678".toList)).drop 3).drop 2).length = 10 ∧
            ¬ startsW "521".toList ((only_digits ("011525512345678".toList)).drop 3) = true then
          some ("+521".toList ++ ((only_digits ("011525512345678".toList)).drop 3).drop 2,
            "MX".toList)
        else some ("+52".toList ++ ((only_digits ("011525512345678".toList)).drop 3).drop 2,
          "MX".toList)
       else some ('+' :: (only_digits ("011525512345678".toList)).drop 3, "INTL".toList)) := by
  constructor
  · have h := C10_theorem.1 false ("0012345".toList) (by decide)
    simpa using h
  · have h := C10_theorem.2 false ("011525512345678".toList) (by decide) (by decide)
    simpa using h

example : cd_normalize_phone false ("52 55 1234 5678".toList) = some ("+525512345678".toList) := by decide
example : cd_normalize_phone true ("52 55 1234 5678".toList) = some ("+5215512345678".toList) := by decide
example : g_normalize_phone false ("0012345678".toList) = some ("+12345678".toList, "INTL".toList) := by decide
example : g_normalize_phone false ("+14155551212".toList) = some ("+14155551212".toList, "US".toList) := by decide
example : g_normalize_phone false ("0012345".toList) = some ("+12345".toList, "INTL".toList) := by decide
example : g_normalize_phone false ("+12345".toList) = none := by decide
